import Mathlib

/-!
Verification of the tinyredis server: a shallow embedding of the RESP frame
decoder (`src/protocol.rs`), the command interpreter (`src/command.rs`), and
the connection-session / key-value-store logic (`src/main.rs`), together with
proofs settling the specification claims.

Strings flowing through the decoder are modelled as `List Char`; declared
lengths count characters (the source counts bytes of UTF-8 text, which agrees
on the ASCII inputs all concrete instances below use).  Machine integers are
modelled as `Int`/`Nat` with explicit two's-complement casts where the source
performs them.
-/

namespace TinyRedis

/-- Characters of the wire text.  The source decodes a `&str`. -/
abbrev Chars := List Char

/-- `src/protocol.rs` `enum RespValue`. -/
inductive RespValue where
  | SimpleString : String → RespValue
  | Error : String → RespValue
  | Integer : Int → RespValue
  | BulkString : Option String → RespValue
  | Array : List RespValue → RespValue
deriving Repr

/-- `src/protocol.rs` `enum RespParseError`. -/
inductive RespParseError where
  | Incomplete
  | InvalidFormat
deriving Repr, DecidableEq

/-- Outcome of running a parsing function.  `ok v rest` models
`Ok((value, rest))`, `err e` models `Err(e)`, and `panicked` models a Rust
panic (reachable in `parse_bulk_string` through the `len + 2` usize overflow
when the declared length is `-2`). -/
inductive PRes (α : Type) where
  | ok : α → Chars → PRes α
  | err : RespParseError → PRes α
  | panicked : PRes α
deriving Repr

abbrev PResult := PRes RespValue

/-! ## Decimal-integer parsing, modelling `str::parse` / `FromStr` -/

/-- Numeric value of a decimal digit character. -/
def digitVal (c : Char) : Nat := c.toNat - 48

/-- Most-significant-first accumulation of decimal digits. -/
def digitsToNat (ds : Chars) : Nat := ds.foldl (fun a c => a * 10 + digitVal c) 0

/-- A non-empty all-digit run parses to its value; anything else fails.
Shared scaffolding of Rust's integer `FromStr` implementations. -/
def parseDigits (ds : Chars) : Option Nat :=
  if ds.isEmpty then none
  else if ds.all Char.isDigit then some (digitsToNat ds)
  else none

/-- `i64::from_str` (and, on the 64-bit targets the server runs on,
`isize::from_str`): optional sign, at least one digit, value within
`[-2^63, 2^63 - 1]`. -/
def parseI64 (s : Chars) : Option Int :=
  match s with
  | [] => none
  | c :: ds =>
    if c = '+' then
      (parseDigits ds).bind fun n => if n ≤ 2 ^ 63 - 1 then some (Int.ofNat n) else none
    else if c = '-' then
      (parseDigits ds).bind fun n => if n ≤ 2 ^ 63 then some (-(Int.ofNat n)) else none
    else
      (parseDigits (c :: ds)).bind fun n => if n ≤ 2 ^ 63 - 1 then some (Int.ofNat n) else none

/-- `isize::from_str` on a 64-bit target coincides with `i64::from_str`. -/
def parseIsize (s : Chars) : Option Int := parseI64 s

/-- `u64::from_str`: optional leading `+` (a `-` is rejected), at least one
digit, value below `2^64`. -/
def parseU64 (s : Chars) : Option Nat :=
  match s with
  | [] => none
  | c :: ds =>
    if c = '+' then
      (parseDigits ds).bind fun n => if n ≤ 2 ^ 64 - 1 then some n else none
    else if c = '-' then none
    else
      (parseDigits (c :: ds)).bind fun n => if n ≤ 2 ^ 64 - 1 then some n else none

/-! ## The frame decoder, `src/protocol.rs` -/

/-- `input.find "\r\n"`: index of the first occurrence of the CRLF
terminator, if any. -/
def findCRLF : Chars → Option Nat
  | [] => none
  | c :: rest =>
    if c = '\r' ∧ rest.head? = some '\n' then some 0
    else (findCRLF rest).map (· + 1)

/-- `fn parse_simple_string` of `src/protocol.rs`. -/
def parse_simple_string (input : Chars) : PResult :=
  match findCRLF input with
  | some pos => .ok (.SimpleString ⟨input.take pos⟩) (input.drop (pos + 2))
  | none => .err .Incomplete

/-- `fn parse_error` of `src/protocol.rs`. -/
def parse_error (input : Chars) : PResult :=
  match findCRLF input with
  | some pos => .ok (.Error ⟨input.take pos⟩) (input.drop (pos + 2))
  | none => .err .Incomplete

/-- `fn parse_integer` of `src/protocol.rs`. -/
def parse_integer (input : Chars) : PResult :=
  match findCRLF input with
  | some pos =>
    match parseI64 (input.take pos) with
    | some n => .ok (.Integer n) (input.drop (pos + 2))
    | none => .err .InvalidFormat
  | none => .err .Incomplete

/-- `fn parse_bulk_string` of `src/protocol.rs`.  The declared length is an
`isize`; `len as usize` is the two's-complement cast, modelled with `emod`.
For a declared length of exactly `-2` the source's `len + 2` overflows
`usize`: in a debug build the addition itself panics, and in a release build
it wraps to `0`, making the `rest.len() < len + 2` guard pass vacuously so
that the slice `&rest[..len]` (or `&rest[len..len + 2]`) panics instead.
Either way the call panics, which the embedding records as `panicked`. -/
def parse_bulk_string (input : Chars) : PResult :=
  match findCRLF input with
  | some pos =>
    match parseIsize (input.take pos) with
    | some len =>
      if len = -1 then .ok (.BulkString none) (input.drop (pos + 2))
      else if 2 ^ 64 ≤ (len % (2 ^ 64 : Int)).toNat + 2 then .panicked
      else if (input.drop (pos + 2)).length < (len % (2 ^ 64 : Int)).toNat + 2 then
        .err .Incomplete
      else if ((input.drop (pos + 2)).drop (len % (2 ^ 64 : Int)).toNat).take 2 ≠ ['\r', '\n'] then
        .err .InvalidFormat
      else
        .ok (.BulkString (some ⟨(input.drop (pos + 2)).take (len % (2 ^ 64 : Int)).toNat⟩))
          ((input.drop (pos + 2)).drop ((len % (2 ^ 64 : Int)).toNat + 2))
    | none => .err .InvalidFormat
  | none => .err .Incomplete

mutual

/-- `fn parse` of `src/protocol.rs`, with an explicit recursion-depth fuel.
The `*` branch inlines `fn parse_array` (its non-recursive header handling,
then the element loop `parseElemsFuel`).  `parseFuel (input.length + 1)` is
proved below to be fuel-independent, so `parse` defined from it satisfies the
source's recursive equations.

After the `-1` early return, `fn parse_array` runs
`Vec::with_capacity(len as usize)`, which deterministically panics with
"capacity overflow" whenever the requested capacity exceeds `isize::MAX`
bytes of elements, before the `for` loop runs at all.  On a 64-bit target
`size_of::<RespValue>()` is 32 (a 24-byte payload — `String`,
`Option<String>` and `Vec` are three words each — plus an 8-byte tag), so
the panic condition is `(len as usize) * 32 > 2^63 - 1`; it fires for every
declared count below `-1` (the cast lands in `[2^63, 2^64)`) and for every
count of `2^58` or more.  Allocation of a permitted capacity is treated as
non-failing, like all allocation in the embedding.  The `for _ in 0..len`
loop iterates `len.toNat` times (an `isize` range is empty for `len ≤ 0`). -/
def parseFuel : Nat → Chars → Option PResult
  | 0, _ => none
  | _ + 1, [] => some (.err .InvalidFormat)
  | fuel + 1, c :: rest =>
    if c = '+' then some (parse_simple_string rest)
    else if c = '-' then some (parse_error rest)
    else if c = ':' then some (parse_integer rest)
    else if c = '$' then some (parse_bulk_string rest)
    else if c = '*' then
      match findCRLF rest with
      | some pos =>
        match parseIsize (rest.take pos) with
        | some len =>
          if len = -1 then some (.ok (.Array []) (rest.drop (pos + 2)))
          else if 2 ^ 63 - 1 < (len % (2 ^ 64 : Int)).toNat * 32 then some .panicked
          else
            match parseElemsFuel fuel len.toNat (rest.drop (pos + 2)) with
            | some (.ok items r) => some (.ok (.Array items) r)
            | some (.err e) => some (.err e)
            | some .panicked => some .panicked
            | none => none
        | none => some (.err .InvalidFormat)
      | none => some (.err .Incomplete)
    else some (.err .InvalidFormat)

/-- The `for _ in 0..len` element loop of `fn parse_array`: invoke the
decoder `n` times, threading the remainder forward and propagating any
failure.  (`0..len` is empty for `len ≤ 0`, hence the `Int.toNat` count at
the call site.) -/
def parseElemsFuel : Nat → Nat → Chars → Option (PRes (List RespValue))
  | 0, _, _ => none
  | _ + 1, 0, rest => some (.ok [] rest)
  | fuel + 1, n + 1, rest =>
    match parseFuel fuel rest with
    | some (.ok v r) =>
      match parseElemsFuel fuel n r with
      | some (.ok vs r') => some (.ok (v :: vs) r')
      | some (.err e) => some (.err e)
      | some .panicked => some .panicked
      | none => none
    | some (.err e) => some (.err e)
    | some .panicked => some .panicked
    | none => none

end

/-! ## Fuel elimination: `parseFuel` with fuel `input.length + 1` never runs
out, so the fuel-free `parse` below satisfies the source's equations. -/


theorem findCRLF_bound : ∀ (input : Chars) (pos : Nat),
    findCRLF input = some pos → pos + 2 ≤ input.length := by
  intro input
  induction input with
  | nil => intro pos h; simp [findCRLF] at h
  | cons c rest ih =>
    intro pos h
    rw [findCRLF] at h
    split at h
    · rename_i hc
      cases h
      cases rest with
      | nil => simp at hc
      | cons d t => simp only [List.length_cons]; omega
    · rcases Option.map_eq_some'.mp h with ⟨p, hp, rfl⟩
      have := ih p hp
      simp only [List.length_cons]; omega

theorem parse_simple_string_ok_length {input : Chars} {v : RespValue} {r : Chars}
    (h : parse_simple_string input = .ok v r) : r.length + 2 ≤ input.length := by
  rw [parse_simple_string] at h
  split at h
  · rename_i pos hpos
    cases h
    have := findCRLF_bound input pos hpos
    simp only [List.length_drop]; omega
  · cases h

theorem parse_error_ok_length {input : Chars} {v : RespValue} {r : Chars}
    (h : parse_error input = .ok v r) : r.length + 2 ≤ input.length := by
  rw [parse_error] at h
  split at h
  · rename_i pos hpos
    cases h
    have := findCRLF_bound input pos hpos
    simp only [List.length_drop]; omega
  · cases h

theorem parse_integer_ok_length {input : Chars} {v : RespValue} {r : Chars}
    (h : parse_integer input = .ok v r) : r.length + 2 ≤ input.length := by
  rw [parse_integer] at h
  split at h
  · rename_i pos hpos
    split at h
    · cases h
      have := findCRLF_bound input pos hpos
      simp only [List.length_drop]; omega
    · cases h
  · cases h

theorem parse_bulk_string_ok_length {input : Chars} {v : RespValue} {r : Chars}
    (h : parse_bulk_string input = .ok v r) : r.length + 2 ≤ input.length := by
  rw [parse_bulk_string] at h
  split at h
  · rename_i pos hpos
    have hb := findCRLF_bound input pos hpos
    split at h
    · split at h
      · cases h
        simp only [List.length_drop]; omega
      · split at h
        · cases h
        · split at h
          · cases h
          · split at h
            · cases h
            · cases h
              simp only [List.length_drop]; omega
    · cases h
  · cases h

theorem parseFuel_ok_length : ∀ (fuel : Nat),
    (∀ input v r, parseFuel fuel input = some (.ok v r) → r.length + 3 ≤ input.length) ∧
    (∀ n rest vs r, parseElemsFuel fuel n rest = some (.ok vs r) → r.length ≤ rest.length) := by
  intro fuel
  induction fuel with
  | zero =>
    constructor
    · intro input v r h; simp [parseFuel] at h
    · intro n rest vs r h; simp [parseElemsFuel] at h
  | succ f ih =>
    constructor
    · intro input v r h
      match input with
      | [] => rw [parseFuel] at h; simp at h
      | c :: rest =>
        rw [parseFuel] at h
        by_cases h1 : c = '+'
        · rw [if_pos h1] at h
          replace h := Option.some.inj h
          have := parse_simple_string_ok_length h
          simp only [List.length_cons]; omega
        rw [if_neg h1] at h
        by_cases h2 : c = '-'
        · rw [if_pos h2] at h
          replace h := Option.some.inj h
          have := parse_error_ok_length h
          simp only [List.length_cons]; omega
        rw [if_neg h2] at h
        by_cases h3 : c = ':'
        · rw [if_pos h3] at h
          replace h := Option.some.inj h
          have := parse_integer_ok_length h
          simp only [List.length_cons]; omega
        rw [if_neg h3] at h
        by_cases h4 : c = '$'
        · rw [if_pos h4] at h
          replace h := Option.some.inj h
          have := parse_bulk_string_ok_length h
          simp only [List.length_cons]; omega
        rw [if_neg h4] at h
        by_cases h5 : c = '*'
        case neg =>
          rw [if_neg h5] at h
          exact PRes.noConfusion (Option.some.inj h)
        rw [if_pos h5] at h
        cases hfind : findCRLF rest with
        | none =>
          simp only [hfind] at h
          exact PRes.noConfusion (Option.some.inj h)
        | some pos =>
          simp only [hfind] at h
          have hb := findCRLF_bound rest pos hfind
          cases hi : parseIsize (rest.take pos) with
          | none =>
            simp only [hi] at h
            exact PRes.noConfusion (Option.some.inj h)
          | some len =>
            simp only [hi] at h
            by_cases hneg : len = -1
            · rw [if_pos hneg] at h
              replace h := Option.some.inj h
              cases h
              simp only [List.length_cons, List.length_drop]; omega
            rw [if_neg hneg] at h
            by_cases hcap : 2 ^ 63 - 1 < (len % (2 ^ 64 : Int)).toNat * 32
            · rw [if_pos hcap] at h
              exact PRes.noConfusion (Option.some.inj h)
            rw [if_neg hcap] at h
            cases he : parseElemsFuel f len.toNat (rest.drop (pos + 2)) with
            | none => rw [he] at h; exact Option.noConfusion h
            | some res2 =>
              rw [he] at h
              cases res2 with
              | ok items r' =>
                dsimp only at h
                replace h := Option.some.inj h
                cases h
                have := ih.2 _ _ _ _ he
                simp only [List.length_cons, List.length_drop] at this ⊢
                omega
              | err e =>
                dsimp only at h
                exact PRes.noConfusion (Option.some.inj h)
              | panicked =>
                dsimp only at h
                exact PRes.noConfusion (Option.some.inj h)
    · intro n rest vs r h
      match n with
      | 0 =>
        rw [parseElemsFuel] at h
        replace h := Option.some.inj h
        cases h
        exact le_refl _
      | n + 1 =>
        rw [parseElemsFuel] at h
        cases hp : parseFuel f rest with
        | none => rw [hp] at h; exact Option.noConfusion h
        | some res0 =>
          rw [hp] at h
          cases res0 with
          | ok v0 r0 =>
            dsimp only at h
            cases he : parseElemsFuel f n r0 with
            | none => rw [he] at h; exact Option.noConfusion h
            | some res2 =>
              rw [he] at h
              cases res2 with
              | ok vs0 r1 =>
                dsimp only at h
                replace h := Option.some.inj h
                cases h
                have hl1 := ih.1 _ _ _ hp
                have hl2 := ih.2 _ _ _ _ he
                omega
              | err e =>
                dsimp only at h
                exact PRes.noConfusion (Option.some.inj h)
              | panicked =>
                dsimp only at h
                exact PRes.noConfusion (Option.some.inj h)
          | err e =>
            dsimp only at h
            exact PRes.noConfusion (Option.some.inj h)
          | panicked =>
            dsimp only at h
            exact PRes.noConfusion (Option.some.inj h)

theorem parseFuel_isSome : ∀ (fuel : Nat),
    (∀ input : Chars, input.length < fuel → (parseFuel fuel input).isSome) ∧
    (∀ (n : Nat) (rest : Chars), rest.length + 2 ≤ fuel → (parseElemsFuel fuel n rest).isSome) := by
  intro fuel
  induction fuel with
  | zero =>
    constructor
    · intro input h; omega
    · intro n rest h; omega
  | succ f ih =>
    constructor
    · intro input hlen
      match input with
      | [] => rw [parseFuel]; rfl
      | c :: rest =>
        rw [parseFuel]
        by_cases h1 : c = '+'
        · rw [if_pos h1]; rfl
        rw [if_neg h1]
        by_cases h2 : c = '-'
        · rw [if_pos h2]; rfl
        rw [if_neg h2]
        by_cases h3 : c = ':'
        · rw [if_pos h3]; rfl
        rw [if_neg h3]
        by_cases h4 : c = '$'
        · rw [if_pos h4]; rfl
        rw [if_neg h4]
        by_cases h5 : c = '*'
        case neg => rw [if_neg h5]; rfl
        rw [if_pos h5]
        cases hfind : findCRLF rest with
        | none => rfl
        | some pos =>
          dsimp only
          have hb := findCRLF_bound rest pos hfind
          cases hi : parseIsize (rest.take pos) with
          | none => rfl
          | some len =>
            dsimp only
            by_cases hneg : len = -1
            · rw [if_pos hneg]; rfl
            rw [if_neg hneg]
            by_cases hcap : 2 ^ 63 - 1 < (len % (2 ^ 64 : Int)).toNat * 32
            · rw [if_pos hcap]; rfl
            rw [if_neg hcap]
            have hrec : (rest.drop (pos + 2)).length + 2 ≤ f := by
              simp only [List.length_cons] at hlen
              simp only [List.length_drop]
              omega
            have hs := ih.2 len.toNat (rest.drop (pos + 2)) hrec
            cases he : parseElemsFuel f len.toNat (rest.drop (pos + 2)) with
            | none => rw [he] at hs; simp at hs
            | some res2 => cases res2 <;> rfl
    · intro n rest hlen
      match n with
      | 0 => rw [parseElemsFuel]; rfl
      | n + 1 =>
        rw [parseElemsFuel]
        have h1 : rest.length < f := by omega
        have hs := ih.1 rest h1
        cases hp : parseFuel f rest with
        | none => rw [hp] at hs; simp at hs
        | some res =>
          cases res with
          | ok v r =>
            dsimp only
            have hcons := (parseFuel_ok_length f).1 _ _ _ hp
            have h2 : r.length + 2 ≤ f := by omega
            have hs2 := ih.2 n r h2
            cases he : parseElemsFuel f n r with
            | none => rw [he] at hs2; simp at hs2
            | some res2 => cases res2 <;> rfl
          | err e => rfl
          | panicked => rfl

theorem parseFuel_mono : ∀ (fuel : Nat),
    (∀ (input : Chars) res, parseFuel fuel input = some res →
      parseFuel (fuel + 1) input = some res) ∧
    (∀ (n : Nat) (rest : Chars) res, parseElemsFuel fuel n rest = some res →
      parseElemsFuel (fuel + 1) n rest = some res) := by
  intro fuel
  induction fuel with
  | zero =>
    constructor
    · intro input res h; simp [parseFuel] at h
    · intro n rest res h; simp [parseElemsFuel] at h
  | succ f ih =>
    constructor
    · intro input res h
      match input with
      | [] => rw [parseFuel] at h ⊢; exact h
      | c :: rest =>
        rw [parseFuel] at h ⊢
        by_cases h1 : c = '+'
        · rw [if_pos h1] at h ⊢; exact h
        rw [if_neg h1] at h ⊢
        by_cases h2 : c = '-'
        · rw [if_pos h2] at h ⊢; exact h
        rw [if_neg h2] at h ⊢
        by_cases h3 : c = ':'
        · rw [if_pos h3] at h ⊢; exact h
        rw [if_neg h3] at h ⊢
        by_cases h4 : c = '$'
        · rw [if_pos h4] at h ⊢; exact h
        rw [if_neg h4] at h ⊢
        by_cases h5 : c = '*'
        case neg => rw [if_neg h5] at h ⊢; exact h
        rw [if_pos h5] at h ⊢
        cases hfind : findCRLF rest with
        | none => simp only [hfind] at h ⊢; exact h
        | some pos =>
          simp only [hfind] at h ⊢
          cases hi : parseIsize (rest.take pos) with
          | none => simp only [hi] at h ⊢; exact h
          | some len =>
            simp only [hi] at h ⊢
            by_cases hneg : len = -1
            · rw [if_pos hneg] at h ⊢; exact h
            rw [if_neg hneg] at h ⊢
            by_cases hcap : 2 ^ 63 - 1 < (len % (2 ^ 64 : Int)).toNat * 32
            · rw [if_pos hcap] at h ⊢; exact h
            rw [if_neg hcap] at h ⊢
            cases he : parseElemsFuel f len.toNat (rest.drop (pos + 2)) with
            | none => rw [he] at h; exact Option.noConfusion h
            | some res2 =>
              rw [he] at h
              rw [ih.2 _ _ _ he]
              cases res2 <;> exact h
    · intro n rest res h
      match n with
      | 0 => rw [parseElemsFuel] at h ⊢; exact h
      | n + 1 =>
        rw [parseElemsFuel] at h ⊢
        cases hp : parseFuel f rest with
        | none => rw [hp] at h; exact Option.noConfusion h
        | some res0 =>
          rw [hp] at h
          rw [ih.1 _ _ hp]
          cases res0 with
          | ok v r =>
            dsimp only at h ⊢
            cases he : parseElemsFuel f n r with
            | none => rw [he] at h; exact Option.noConfusion h
            | some res2 =>
              rw [he] at h
              rw [ih.2 _ _ _ he]
              cases res2 <;> exact h
          | err e => exact h
          | panicked => exact h

theorem parseFuel_mono_le {f f' : Nat} (hle : f ≤ f') :
    ∀ {input : Chars} {res}, parseFuel f input = some res → parseFuel f' input = some res := by
  induction hle with
  | refl => intro _ _ h; exact h
  | step _ ih =>
    intro input res hp
    exact (parseFuel_mono _).1 _ _ (ih hp)

theorem parseElemsFuel_mono_le {f f' : Nat} (hle : f ≤ f') :
    ∀ {n : Nat} {rest : Chars} {res}, parseElemsFuel f n rest = some res →
      parseElemsFuel f' n rest = some res := by
  induction hle with
  | refl => intro _ _ _ h; exact h
  | step _ ih =>
    intro n rest res hp
    exact (parseFuel_mono _).2 _ _ _ (ih hp)

/-- `fn parse` of `src/protocol.rs` as a fuel-free total function.  The fuel
`input.length + 1` always suffices (`parseFuel_isSome`), and the equations
relating `parse` to the source's dispatch are proved below. -/
def parse (input : Chars) : PResult :=
  (parseFuel (input.length + 1) input).getD .panicked

theorem parseFuel_eq_parse {fuel : Nat} {input : Chars} (h : input.length < fuel) :
    parseFuel fuel input = some (parse input) := by
  have hs := (parseFuel_isSome (input.length + 1)).1 input (by omega)
  rcases Option.isSome_iff_exists.mp hs with ⟨res, hres⟩
  have := parseFuel_mono_le (by omega : input.length + 1 ≤ fuel) hres
  rw [this, parse, hres]
  rfl

/-- The element loop of `fn parse_array`, expressed through `parse` itself:
invoke the decoder exactly `n` times, threading the remainder forward,
propagating any failure unchanged. -/
def parseElems : Nat → Chars → PRes (List RespValue)
  | 0, rest => .ok [] rest
  | n + 1, rest =>
    match parse rest with
    | .ok v r =>
      match parseElems n r with
      | .ok vs r' => .ok (v :: vs) r'
      | .err e => .err e
      | .panicked => .panicked
    | .err e => .err e
    | .panicked => .panicked

theorem parseElemsFuel_eq_parseElems :
    ∀ (n : Nat) {fuel : Nat} {rest : Chars}, rest.length + 2 ≤ fuel →
      parseElemsFuel fuel n rest = some (parseElems n rest) := by
  intro n
  induction n with
  | zero =>
    intro fuel rest h
    match fuel with
    | 0 => omega
    | f + 1 => rw [parseElemsFuel, parseElems]
  | succ n ih =>
    intro fuel rest h
    match fuel with
    | 0 => omega
    | f + 1 =>
      rw [parseElemsFuel, parseElems]
      have hp := parseFuel_eq_parse (by omega : rest.length < f)
      rw [hp]
      cases hparse : parse rest with
      | ok v r =>
        dsimp only
        have hlen := (parseFuel_ok_length f).1 _ _ _ (by rw [hp, hparse])
        rw [ih (by omega : r.length + 2 ≤ f)]
        cases parseElems n r <;> rfl
      | err e => rfl
      | panicked => rfl

/-- `fn parse_array` of `src/protocol.rs` (header handling plus the element
loop), expressed through `parse`.  The second guard is the deterministic
`Vec::with_capacity(len as usize)` capacity-overflow panic (capacity times
the 32-byte `size_of::<RespValue>()` above `isize::MAX`), which the source
hits after the `-1` early return and before its `for` loop. -/
def parse_array (input : Chars) : PResult :=
  match findCRLF input with
  | some pos =>
    match parseIsize (input.take pos) with
    | some len =>
      if len = -1 then .ok (.Array []) (input.drop (pos + 2))
      else if 2 ^ 63 - 1 < (len % (2 ^ 64 : Int)).toNat * 32 then .panicked
      else
        match parseElems len.toNat (input.drop (pos + 2)) with
        | .ok items r => .ok (.Array items) r
        | .err e => .err e
        | .panicked => .panicked
    | none => .err .InvalidFormat
  | none => .err .Incomplete

/-! ### The source's dispatch equations for `parse` -/

theorem parse_nil : parse [] = .err .InvalidFormat := rfl

theorem parse_plus (s : Chars) : parse ('+' :: s) = parse_simple_string s := by
  rw [parse, List.length_cons, parseFuel, if_pos rfl]
  rfl

theorem parse_minus (s : Chars) : parse ('-' :: s) = parse_error s := by
  rw [parse, List.length_cons, parseFuel, if_neg (by decide), if_pos rfl]
  rfl

theorem parse_colon (s : Chars) : parse (':' :: s) = parse_integer s := by
  rw [parse, List.length_cons, parseFuel, if_neg (by decide), if_neg (by decide), if_pos rfl]
  rfl

theorem parse_dollar (s : Chars) : parse ('$' :: s) = parse_bulk_string s := by
  rw [parse, List.length_cons, parseFuel, if_neg (by decide), if_neg (by decide),
    if_neg (by decide), if_pos rfl]
  rfl

theorem parse_other (c : Char) (s : Chars)
    (h : c ≠ '+' ∧ c ≠ '-' ∧ c ≠ ':' ∧ c ≠ '$' ∧ c ≠ '*') :
    parse (c :: s) = .err .InvalidFormat := by
  rw [parse, List.length_cons, parseFuel, if_neg h.1, if_neg h.2.1, if_neg h.2.2.1,
    if_neg h.2.2.2.1, if_neg h.2.2.2.2]
  rfl

theorem parse_star (s : Chars) : parse ('*' :: s) = parse_array s := by
  rw [parse, List.length_cons, parseFuel, if_neg (by decide), if_neg (by decide),
    if_neg (by decide), if_neg (by decide), if_pos rfl, parse_array]
  cases hfind : findCRLF s with
  | none => rfl
  | some pos =>
    dsimp only
    have hb := findCRLF_bound s pos hfind
    cases hi : parseIsize (s.take pos) with
    | none => rfl
    | some len =>
      dsimp only
      by_cases hneg : len = -1
      · simp only [if_pos hneg]; rfl
      simp only [if_neg hneg]
      by_cases hcap : 2 ^ 63 - 1 < (len % (2 ^ 64 : Int)).toNat * 32
      · simp only [if_pos hcap]; rfl
      simp only [if_neg hcap]
      have hdrop : (s.drop (pos + 2)).length + 2 ≤ s.length + 1 := by
        simp only [List.length_drop]; omega
      rw [parseElemsFuel_eq_parseElems _ hdrop]
      cases parseElems len.toNat (s.drop (pos + 2)) <;> rfl

/-- Successful decoding always consumes at least three characters (the tag
plus at least the terminator). -/
theorem parse_ok_length {input : Chars} {v : RespValue} {r : Chars}
    (h : parse input = .ok v r) : r.length + 3 ≤ input.length := by
  have hf := parseFuel_eq_parse (Nat.lt_succ_self input.length)
  rw [h] at hf
  exact (parseFuel_ok_length _).1 _ _ _ hf

/-! ## The command interpreter, `src/command.rs` -/

/-- `str::to_uppercase`.  `Char.toUpper` coincides with Rust's
`to_uppercase` on ASCII strings, which is all the concrete instances below
use. -/
def strUpper (s : String) : String := ⟨s.data.map Char.toUpper⟩

/-- `src/command.rs` `enum Command`. -/
inductive Command where
  | Ping : Option String → Command
  | Echo : String → Command
  | Get : String → Command
  | Set : String → String → Option Nat → Command
  | Unknown : String → Command
deriving Repr, DecidableEq

/-- `fn parse_command` of `src/command.rs`.  Note that the source reaches the
`other` arm with the already-uppercased name, so `Unknown` carries the
uppercased token. -/
def parse_command (value : RespValue) : Except RespParseError Command :=
  match value with
  | .Array items =>
    match items[0]? with
    | some (RespValue.BulkString (some s)) =>
      if strUpper s = "PING" then
        .ok (.Ping (match items[1]? with
          | some (RespValue.BulkString (some m)) => some m
          | _ => none))
      else if strUpper s = "ECHO" then
        match items[1]? with
        | some (RespValue.BulkString (some msg)) => .ok (.Echo msg)
        | _ => .error .InvalidFormat
      else if strUpper s = "GET" then
        match items[1]? with
        | some (RespValue.BulkString (some key)) => .ok (.Get key)
        | _ => .error .InvalidFormat
      else if strUpper s = "SET" then
        match items[1]? with
        | some (RespValue.BulkString (some key)) =>
          match items[2]? with
          | some (RespValue.BulkString (some v)) =>
            .ok (.Set key v
              (if 5 ≤ items.length then
                match items[3]?, items[4]? with
                | some (RespValue.BulkString (some opt)), some (RespValue.BulkString (some ms)) =>
                  if strUpper opt = "PX" then parseU64 ms.data else none
                | _, _ => none
              else none))
          | _ => .error .InvalidFormat
        | _ => .error .InvalidFormat
      else .ok (.Unknown (strUpper s))
    | _ => .error .InvalidFormat
  | _ => .error .InvalidFormat

/-! ## The key-value store and connection session, `src/main.rs` -/

/-- `struct ValueEntry` of `src/main.rs`; `Instant` is modelled as a `Nat`
timestamp in milliseconds. -/
structure ValueEntry where
  value : String
  expires_at : Option Nat
deriving Repr, DecidableEq

/-- The shared `HashMap<String, ValueEntry>`, modelled as its lookup
function. -/
abbrev Db := String → Option ValueEntry

/-- `HashMap::insert`: unconditional replacement of the entry for the key. -/
def dbInsert (key : String) (e : ValueEntry) (db : Db) : Db :=
  fun k => if k = key then some e else db k

/-- `HashMap::remove`. -/
def dbRemove (key : String) (db : Db) : Db :=
  fun k => if k = key then none else db k

def emptyDb : Db := fun _ => none

/-- The `GET` read of `handle_command` (`src/main.rs` lines 178-193): a
missing key is a miss; an entry whose expiry is strictly before `now`
(`Instant::now() > expiry`) is removed and reported as a miss; otherwise the
stored value is a hit.  Returns the reported value and the resulting map. -/
def getFromDb (now : Nat) (db : Db) (key : String) : Option String × Db :=
  match db key with
  | some entry =>
    match entry.expires_at with
    | some expiry =>
      if expiry < now then (none, dbRemove key db)
      else (some entry.value, db)
    | none => (some entry.value, db)
  | none => (none, db)

/-- `async fn handle_command` of `src/main.rs`: the reply written to the
stream (all `write_all` output of one invocation, concatenated) together
with the store after the command.  The `SET` branch's early `return` on an
unparseable `PX` value is modelled by the `Except.error` alternative of the
expiry computation. -/
def handleCommand (now : Nat) (value : RespValue) (db : Db) : String × Db :=
  match value with
  | .Array elements =>
    match elements[0]? with
    | some (RespValue.BulkString (some cmd)) =>
      if strUpper cmd = "PING" then
        (match elements[1]? with
         | some (RespValue.BulkString (some message)) => "+" ++ message ++ "\r\n"
         | _ => "+PONG\r\n", db)
      else if strUpper cmd = "ECHO" then
        match elements[1]? with
        | some (RespValue.BulkString (some message)) =>
          ("$" ++ toString message.length ++ "\r\n" ++ message ++ "\r\n", db)
        | _ => ("-ERR wrong number of arguments for \x27echo\x27\r\n", db)
      else if strUpper cmd = "SET" then
        if elements.length < 3 then
          ("-ERR wrong number of arguments for \x27set\x27\r\n", db)
        else
          match elements[1]? with
          | some (RespValue.BulkString (some key)) =>
            match elements[2]? with
            | some (RespValue.BulkString (some v)) =>
              match
                (if 5 ≤ elements.length then
                  match elements[3]?, elements[4]? with
                  | some (RespValue.BulkString (some opt)), some (RespValue.BulkString (some ms)) =>
                    if strUpper opt = "PX" then
                      match parseU64 ms.data with
                      | some m => Except.ok (some (now + m))
                      | none => Except.error ()
                    else Except.ok none
                  | _, _ => Except.ok none
                else Except.ok (none : Option Nat)) with
              | .error _ => ("-ERR invalid expire time\r\n", db)
              | .ok expiry => ("+OK\r\n", dbInsert key ⟨v, expiry⟩ db)
            | _ => ("-ERR invalid value\r\n", db)
          | _ => ("-ERR invalid key\r\n", db)
      else if strUpper cmd = "GET" then
        if elements.length ≠ 2 then
          ("-ERR wrong number of arguments for \x27get\x27\r\n", db)
        else
          match elements[1]? with
          | some (RespValue.BulkString (some key)) =>
            match getFromDb now db key with
            | (some v, db1) => ("$" ++ toString v.length ++ "\r\n" ++ v ++ "\r\n", db1)
            | (none, db1) => ("$-1\r\n", db1)
          | _ => ("-ERR invalid key\r\n", db)
      else ("-ERR unknown command\r\n", db)
    | _ => ("-ERR malformed command\r\n", db)
  | _ => ("-ERR protocol error\r\n", db)

/-- Observable outcome of one iteration of the session's outer read loop:
replies written to the peer, messages printed to the server's stderr via
`eprintln!`, the retained buffer, the store, and whether the session task is
still running afterwards. -/
structure SessionOut where
  replies : List String
  logs : List String
  buffer : Chars
  db : Db
  alive : Bool

/-- The session's inner decode loop (`src/main.rs` lines 48-65): decode a
frame, hand it to `handle_command`, replace the buffer with the remainder
and repeat.  On `Incomplete` the loop breaks, keeping the buffer, and the
session waits for more bytes.  On any other parse error (`InvalidFormat`)
the source runs `eprintln!("-ERR invalid input\r\n")` — a stderr log, not a
write to the peer — and likewise only breaks the inner loop, keeping the
buffer, with the session still alive.  A panic inside `parse` kills the
spawned task, ending the session without output.  The fuel is an upper bound
on iterations; `sessionStep` supplies one more than the buffer length, which
suffices because every decoded frame consumes at least three characters. -/
def innerLoop : Nat → Chars → Db → Nat → SessionOut
  | 0, buf, db, _ => ⟨[], [], buf, db, true⟩
  | fuel + 1, buf, db, now =>
    match parse buf with
    | .ok v rest =>
      let rd := handleCommand now v db
      let out := innerLoop fuel rest rd.2 now
      ⟨rd.1 :: out.replies, out.logs, out.buffer, out.db, out.alive⟩
    | .err .Incomplete => ⟨[], [], buf, db, true⟩
    | .err .InvalidFormat => ⟨[], ["-ERR invalid input\r\n"], buf, db, true⟩
    | .panicked => ⟨[], [], buf, db, false⟩

/-- One iteration of the outer read loop of the session (`src/main.rs` lines
42-72) after a successful read: append the newly read bytes to the buffer
and run the inner decode loop. -/
def sessionStep (buffer newBytes : Chars) (db : Db) (now : Nat) : SessionOut :=
  innerLoop ((buffer ++ newBytes).length + 1) (buffer ++ newBytes) db now

/-! ## Decimal rendering, for the encoder -/

/-- The character of a decimal digit. -/
def digitChar (d : Nat) : Char := Char.ofNat (48 + d)

/-- Most-significant-first decimal digits of a number, prepended to `acc`. -/
def natReprAux (n : Nat) (acc : Chars) : Chars :=
  if h : n < 10 then digitChar n :: acc
  else natReprAux (n / 10) (digitChar (n % 10) :: acc)
termination_by n
decreasing_by exact Nat.div_lt_self (by omega) (by omega)

/-- Decimal rendering of a natural number. -/
def natToChars (n : Nat) : Chars := natReprAux n []

/-- Decimal rendering of an integer (minus sign for negatives). -/
def intToChars (n : Int) : Chars :=
  if n < 0 then '-' :: natToChars (-n).toNat else natToChars n.toNat

theorem digitChar_isDigit {d : Nat} (h : d < 10) : (digitChar d).isDigit = true := by
  interval_cases d <;> decide

theorem digitVal_digitChar {d : Nat} (h : d < 10) : digitVal (digitChar d) = d := by
  interval_cases d <;> decide

theorem isDigit_ne_plus {c : Char} (h : c.isDigit = true) : c ≠ '+' := by
  rintro rfl; exact absurd h (by decide)

theorem isDigit_ne_minus {c : Char} (h : c.isDigit = true) : c ≠ '-' := by
  rintro rfl; exact absurd h (by decide)

theorem isDigit_ne_cr {c : Char} (h : c.isDigit = true) : c ≠ '\r' := by
  rintro rfl; exact absurd h (by decide)

theorem natReprAux_append : ∀ (n : Nat) (acc : Chars),
    natReprAux n acc = natReprAux n [] ++ acc := by
  intro n
  induction n using Nat.strong_induction_on with
  | _ n ih =>
    intro acc
    by_cases h : n < 10
    · rw [natReprAux, dif_pos h, natReprAux, dif_pos h]
      rfl
    · have hrec : n / 10 < n := Nat.div_lt_self (by omega) (by omega)
      rw [natReprAux, dif_neg h]
      conv_rhs => rw [natReprAux, dif_neg h]
      rw [ih (n / 10) hrec (digitChar (n % 10) :: acc),
        ih (n / 10) hrec (digitChar (n % 10) :: [])]
      simp

theorem digitsToNat_append (a : Chars) (c : Char) :
    digitsToNat (a ++ [c]) = digitsToNat a * 10 + digitVal c := by
  simp [digitsToNat, List.foldl_append]

theorem natToChars_spec : ∀ n : Nat,
    natToChars n ≠ [] ∧ (∀ c ∈ natToChars n, c.isDigit = true) ∧
      digitsToNat (natToChars n) = n := by
  intro n
  induction n using Nat.strong_induction_on with
  | _ n ih =>
    by_cases h : n < 10
    · have hn : natToChars n = [digitChar n] := by rw [natToChars, natReprAux, dif_pos h]
      rw [hn]
      refine ⟨by simp, ?_, ?_⟩
      · intro c hc
        simp only [List.mem_singleton] at hc
        subst hc
        exact digitChar_isDigit h
      · simp [digitsToNat, digitVal_digitChar h]
    · have hrec : n / 10 < n := Nat.div_lt_self (by omega) (by omega)
      have hstep : natToChars n = natToChars (n / 10) ++ [digitChar (n % 10)] := by
        rw [natToChars, natReprAux, dif_neg h, natReprAux_append]
        rfl
      obtain ⟨ih1, ih2, ih3⟩ := ih (n / 10) hrec
      rw [hstep]
      refine ⟨by simp, ?_, ?_⟩
      · intro c hc
        rcases List.mem_append.mp hc with hc | hc
        · exact ih2 c hc
        · simp only [List.mem_singleton] at hc
          subst hc
          exact digitChar_isDigit (Nat.mod_lt _ (by omega))
      · rw [digitsToNat_append, ih3, digitVal_digitChar (Nat.mod_lt _ (by omega))]
        omega

theorem parseDigits_natToChars (n : Nat) : parseDigits (natToChars n) = some n := by
  obtain ⟨h1, h2, h3⟩ := natToChars_spec n
  rw [parseDigits, if_neg, if_pos]
  · rw [h3]
  · exact List.all_eq_true.mpr h2
  · simp [List.isEmpty_iff, h1]

theorem parseI64_natToChars {n : Nat} (h : n ≤ 2 ^ 63 - 1) :
    parseI64 (natToChars n) = some (Int.ofNat n) := by
  obtain ⟨h1, h2, _⟩ := natToChars_spec n
  cases heq : natToChars n with
  | nil => exact absurd heq h1
  | cons c cs =>
    have hcd : c.isDigit = true := h2 c (by rw [heq]; exact List.mem_cons_self _ _)
    rw [parseI64]
    rw [if_neg (isDigit_ne_plus hcd)]
    rw [if_neg (isDigit_ne_minus hcd)]
    rw [← heq]
    rw [parseDigits_natToChars, Option.some_bind, if_pos h]

theorem parseI64_intToChars {n : Int} (h1 : -(2 ^ 63) ≤ n) (h2 : n ≤ 2 ^ 63 - 1) :
    parseI64 (intToChars n) = some n := by
  rw [intToChars]
  by_cases hn : n < 0
  · rw [if_pos hn, parseI64, if_neg (by decide), if_pos rfl, parseDigits_natToChars]
    have hle : (-n).toNat ≤ 2 ^ 63 := by omega
    have hcast : (Int.ofNat (-n).toNat) = -n := Int.toNat_of_nonneg (by omega)
    rw [Option.some_bind, if_pos hle, hcast, neg_neg]
  · rw [if_neg hn, parseI64_natToChars (by omega : n.toNat ≤ 2 ^ 63 - 1)]
    have : (Int.ofNat n.toNat) = n := Int.toNat_of_nonneg (by omega)
    rw [this]

theorem intToChars_ne_cr (n : Int) : ∀ c ∈ intToChars n, c ≠ '\r' := by
  rw [intToChars]
  split
  · intro c hc
    rcases List.mem_cons.mp hc with hc | hc
    · subst hc; decide
    · exact isDigit_ne_cr ((natToChars_spec _).2.1 c hc)
  · intro c hc
    exact isDigit_ne_cr ((natToChars_spec _).2.1 c hc)

theorem findCRLF_append (s t : Chars) (h : ∀ c ∈ s, c ≠ '\r') :
    findCRLF (s ++ '\r' :: '\n' :: t) = some s.length := by
  induction s with
  | nil => simp [findCRLF]
  | cons c s' ih =>
    rw [List.cons_append, findCRLF, if_neg, ih]
    · rfl
    · intro c' hc'; exact h c' (List.mem_cons_of_mem _ hc')
    · intro hcon
      exact h c (List.mem_cons_self _ _) hcon.1

/-! ## The wire encoding of §6, and the round-trip property -/

mutual

/-- Modelled from the spec: the repository has no encoder for `RespValue`
(replies are formatted ad hoc), so this is the wire format of §6 of the
specification: `+text\r\n`, `-text\r\n`, `:signed-decimal\r\n`,
`$length\r\npayload\r\n` (`$-1\r\n` for null), and `*count\r\n` followed by
the encoded elements. -/
def encode : RespValue → Chars
  | .SimpleString s => '+' :: (s.data ++ ['\r', '\n'])
  | .Error s => '-' :: (s.data ++ ['\r', '\n'])
  | .Integer n => ':' :: (intToChars n ++ ['\r', '\n'])
  | .BulkString none => ['$', '-', '1', '\r', '\n']
  | .BulkString (some s) =>
    '$' :: (natToChars s.data.length ++ ['\r', '\n'] ++ s.data ++ ['\r', '\n'])
  | .Array xs => '*' :: (natToChars xs.length ++ ['\r', '\n'] ++ encodeList xs)

/-- Concatenated encodings of the elements of an array. -/
def encodeList : List RespValue → Chars
  | [] => []
  | x :: xs => encode x ++ encodeList xs

end

mutual

/-- The values representable on the wire: simple strings and errors carry no
CR or LF (§3/§6 of the spec); integers fit `i64`; bulk-string payload
lengths fit `isize`, so their decimal length headers parse back; array
element counts stay within the `Vec::with_capacity` bound (count times the
32-byte element size at most `isize::MAX`), so the array is actually
decodable rather than a capacity-overflow panic. -/
def wfB : RespValue → Bool
  | .SimpleString s => s.data.all fun c => (c != '\r') && (c != '\n')
  | .Error s => s.data.all fun c => (c != '\r') && (c != '\n')
  | .Integer n => decide (-(2 ^ 63) ≤ n) && decide (n ≤ 2 ^ 63 - 1)
  | .BulkString none => true
  | .BulkString (some s) => decide (s.data.length ≤ 2 ^ 63 - 1)
  | .Array xs => decide (xs.length * 32 ≤ 2 ^ 63 - 1) && wfListB xs

def wfListB : List RespValue → Bool
  | [] => true
  | x :: xs => wfB x && wfListB xs

end

theorem mk_data (s : String) : String.mk s.data = s := rfl

theorem drop_two_cons (a b : Char) (t : Chars) : (a :: b :: t).drop 2 = t := rfl

theorem ofNat_ne_neg_one (n : Nat) : ¬(Int.ofNat n = -1) := by
  simp only [Int.ofNat_eq_natCast]; omega

theorem ofNat_emod_pow64_toNat {n : Nat} (h : n < 2 ^ 64) :
    ((Int.ofNat n) % 2 ^ 64).toNat = n := by
  simp only [Int.ofNat_eq_natCast]; omega

mutual

/-- Round-trip: decoding an encoded representable value yields the value
back, consuming exactly its encoding. -/
theorem encode_parse : ∀ (v : RespValue), wfB v = true → ∀ (t : Chars),
    parse (encode v ++ t) = .ok v t
  | .SimpleString s => by
    intro hwf t
    rw [wfB] at hwf
    simp only [List.all_eq_true, Bool.and_eq_true, bne_iff_ne, ne_eq] at hwf
    have hcr : ∀ c ∈ s.data, c ≠ '\r' := fun c hc => (hwf c hc).1
    rw [encode]
    simp only [List.cons_append, List.append_assoc, List.cons_append, List.nil_append]
    rw [parse_plus, parse_simple_string, findCRLF_append _ _ hcr]
    dsimp only
    rw [List.take_left, List.drop_append 2, drop_two_cons, mk_data]
  | .Error s => by
    intro hwf t
    rw [wfB] at hwf
    simp only [List.all_eq_true, Bool.and_eq_true, bne_iff_ne, ne_eq] at hwf
    have hcr : ∀ c ∈ s.data, c ≠ '\r' := fun c hc => (hwf c hc).1
    rw [encode]
    simp only [List.cons_append, List.append_assoc, List.cons_append, List.nil_append]
    rw [parse_minus, parse_error, findCRLF_append _ _ hcr]
    dsimp only
    rw [List.take_left, List.drop_append 2, drop_two_cons, mk_data]
  | .Integer n => by
    intro hwf t
    rw [wfB] at hwf
    simp only [Bool.and_eq_true, decide_eq_true_eq] at hwf
    rw [encode]
    simp only [List.cons_append, List.append_assoc, List.cons_append, List.nil_append]
    rw [parse_colon, parse_integer, findCRLF_append _ _ (intToChars_ne_cr n)]
    dsimp only
    rw [List.take_left, parseI64_intToChars hwf.1 hwf.2]
    dsimp only
    rw [List.drop_append 2, drop_two_cons]
  | .BulkString none => by
    intro _ t
    rw [encode]
    simp only [List.cons_append, List.nil_append]
    rw [parse_dollar, parse_bulk_string]
    have hf : findCRLF ('-' :: '1' :: '\r' :: '\n' :: t) = some 2 := by
      rw [findCRLF, if_neg (by simp), findCRLF, if_neg (by simp), findCRLF,
        if_pos (by simp)]
      rfl
    rw [hf]
    dsimp only
    have htake : ('-' :: '1' :: '\r' :: '\n' :: t).take 2 = ['-', '1'] := rfl
    rw [htake]
    have hiso : parseIsize ['-', '1'] = some (-1) := rfl
    rw [hiso]
    dsimp only
    rw [if_pos rfl]
    rfl
  | .BulkString (some s) => by
    intro hwf t
    rw [wfB] at hwf
    simp only [decide_eq_true_eq] at hwf
    rw [encode]
    simp only [List.cons_append, List.append_assoc, List.cons_append, List.nil_append]
    rw [parse_dollar, parse_bulk_string]
    have hdig : ∀ c ∈ natToChars s.data.length, c ≠ '\r' :=
      fun c hc => isDigit_ne_cr ((natToChars_spec _).2.1 c hc)
    rw [findCRLF_append _ _ hdig]
    dsimp only
    rw [List.take_left, parseIsize, parseI64_natToChars hwf]
    dsimp only
    rw [List.drop_append 2, drop_two_cons]
    rw [if_neg (ofNat_ne_neg_one s.data.length)]
    rw [ofNat_emod_pow64_toNat (by omega : s.data.length < 2 ^ 64)]
    rw [if_neg (by omega : ¬(2 ^ 64 ≤ s.data.length + 2))]
    rw [if_neg (by simp only [List.length_append, List.length_cons]; omega)]
    have hterm : ((s.data ++ '\r' :: '\n' :: t).drop s.data.length).take 2 = ['\r', '\n'] := by
      rw [List.drop_left]
      rfl
    rw [hterm, if_neg (by simp), List.take_left, List.drop_append 2, drop_two_cons, mk_data]
  | .Array xs => by
    intro hwf t
    rw [wfB] at hwf
    simp only [Bool.and_eq_true, decide_eq_true_eq] at hwf
    rw [encode]
    simp only [List.cons_append, List.append_assoc, List.cons_append, List.nil_append]
    rw [parse_star, parse_array]
    have hdig : ∀ c ∈ natToChars xs.length, c ≠ '\r' :=
      fun c hc => isDigit_ne_cr ((natToChars_spec _).2.1 c hc)
    rw [findCRLF_append _ _ hdig]
    dsimp only
    rw [List.take_left, parseIsize, parseI64_natToChars (by omega : xs.length ≤ 2 ^ 63 - 1)]
    dsimp only
    rw [List.drop_append 2, drop_two_cons]
    rw [if_neg (ofNat_ne_neg_one xs.length)]
    rw [ofNat_emod_pow64_toNat (by omega : xs.length < 2 ^ 64)]
    rw [if_neg (by omega : ¬(2 ^ 63 - 1 < xs.length * 32))]
    have htn : (Int.ofNat xs.length).toNat = xs.length := rfl
    rw [htn, encodeList_parseElems xs hwf.2 t]

/-- Round-trip for the element loop: decoding the concatenated encodings of
`xs` with count `xs.length` yields exactly `xs`. -/
theorem encodeList_parseElems : ∀ (xs : List RespValue), wfListB xs = true → ∀ (t : Chars),
    parseElems xs.length (encodeList xs ++ t) = .ok xs t
  | [] => by
    intro _ t
    rw [encodeList, List.nil_append, List.length_nil, parseElems]
  | x :: xs' => by
    intro hwf t
    rw [wfListB, Bool.and_eq_true] at hwf
    rw [encodeList, List.length_cons, parseElems, List.append_assoc,
      encode_parse x hwf.1 (encodeList xs' ++ t)]
    dsimp only
    rw [encodeList_parseElems xs' hwf.2 t]

end

/-! ## Support lemmas for the claims -/

/-- A parsed 64-bit integer lies in the `i64` range. -/
theorem parseI64_range {s : Chars} {n : Int} (h : parseI64 s = some n) :
    -(2 ^ 63) ≤ n ∧ n ≤ 2 ^ 63 - 1 := by
  match s with
  | [] => rw [parseI64] at h; cases h
  | c :: ds =>
    rw [parseI64] at h
    by_cases h1 : c = '+'
    · rw [if_pos h1] at h
      cases hd : parseDigits ds with
      | none => rw [hd] at h; cases h
      | some m =>
        rw [hd, Option.some_bind] at h
        split at h
        · cases h; constructor <;> (simp only [Int.ofNat_eq_natCast]; omega)
        · cases h
    rw [if_neg h1] at h
    by_cases h2 : c = '-'
    · rw [if_pos h2] at h
      cases hd : parseDigits ds with
      | none => rw [hd] at h; cases h
      | some m =>
        rw [hd, Option.some_bind] at h
        split at h
        · cases h; constructor <;> (simp only [Int.ofNat_eq_natCast]; omega)
        · cases h
    rw [if_neg h2] at h
    cases hd : parseDigits (c :: ds) with
    | none => rw [hd] at h; cases h
    | some m =>
      rw [hd, Option.some_bind] at h
      split at h
      · cases h; constructor <;> (simp only [Int.ofNat_eq_natCast]; omega)
      · cases h

/-- A successful element loop returns exactly as many elements as its
count. -/
theorem parseElems_ok_length : ∀ (n : Nat) (rest : Chars) {items : List RespValue} {r : Chars},
    parseElems n rest = .ok items r → items.length = n := by
  intro n
  induction n with
  | zero =>
    intro rest items r h
    rw [parseElems] at h
    cases h
    rfl
  | succ n ih =>
    intro rest items r h
    rw [parseElems] at h
    cases hp : parse rest with
    | ok v r0 =>
      rw [hp] at h
      dsimp only at h
      cases he : parseElems n r0 with
      | ok vs r1 =>
        rw [he] at h
        cases h
        simp [ih r0 he]
      | err e => rw [he] at h; cases h
      | panicked => rw [he] at h; cases h
    | err e => rw [hp] at h; cases h
    | panicked => rw [hp] at h; cases h

/-- A failure of the decoder on the first element propagates unchanged
through the element loop. -/
theorem parseElems_err_first (n : Nat) (rest : Chars) (e : RespParseError)
    (h : parse rest = .err e) : parseElems (n + 1) rest = .err e := by
  rw [parseElems, h]

/-- Every element-loop failure is a decoder failure on some suffix,
propagated unchanged. -/
theorem parseElems_err_source : ∀ (n : Nat) (rest : Chars) {e : RespParseError},
    parseElems n rest = .err e → ∃ r, parse r = .err e := by
  intro n
  induction n with
  | zero =>
    intro rest e h
    rw [parseElems] at h
    cases h
  | succ n ih =>
    intro rest e h
    rw [parseElems] at h
    cases hp : parse rest with
    | ok v r0 =>
      rw [hp] at h
      dsimp only at h
      cases he : parseElems n r0 with
      | ok vs r1 => rw [he] at h; cases h
      | err e1 =>
        rw [he] at h
        cases h
        exact ih r0 he
      | panicked => rw [he] at h; cases h
    | err e1 =>
      rw [hp] at h
      cases h
      exact ⟨rest, hp⟩
    | panicked => rw [hp] at h; cases h

theorem parse_simple_string_ne_panicked (input : Chars) :
    parse_simple_string input ≠ .panicked := by
  rw [parse_simple_string]
  split <;> simp

theorem parse_error_ne_panicked (input : Chars) : parse_error input ≠ .panicked := by
  rw [parse_error]
  split <;> simp

theorem parse_integer_ne_panicked (input : Chars) : parse_integer input ≠ .panicked := by
  rw [parse_integer]
  split
  · split <;> simp
  · simp

/-- The bulk-string decoder panics exactly through the `len + 2` usize
overflow of a parsed header. -/
theorem parse_bulk_string_panicked {input : Chars} (h : parse_bulk_string input = .panicked) :
    ∃ (pos : Nat) (len : Int), findCRLF input = some pos ∧
      parseIsize (input.take pos) = some len ∧ 2 ^ 64 ≤ (len % 2 ^ 64).toNat + 2 := by
  rw [parse_bulk_string] at h
  split at h
  · rename_i pos hpos
    split at h
    · rename_i len hlen2
      split at h
      · cases h
      · split at h
        · rename_i hcond
          exact ⟨pos, len, hpos, hlen2, hcond⟩
        · split at h
          · cases h
          · split at h
            · cases h
            · cases h
    · cases h
  · cases h

/-- The remainder of a successful decode is a suffix of the input (every
parser only drops a prefix). -/
theorem parseFuel_ok_suffix : ∀ (fuel : Nat),
    (∀ input v r, parseFuel fuel input = some (.ok v r) → r <:+ input) ∧
    (∀ n rest vs r, parseElemsFuel fuel n rest = some (.ok vs r) → r <:+ rest) := by
  intro fuel
  induction fuel with
  | zero =>
    constructor
    · intro input v r h; simp [parseFuel] at h
    · intro n rest vs r h; simp [parseElemsFuel] at h
  | succ f ih =>
    constructor
    · intro input v r h
      match input with
      | [] => rw [parseFuel] at h; simp at h
      | c :: rest =>
        rw [parseFuel] at h
        by_cases h1 : c = '+'
        · rw [if_pos h1] at h
          replace h := Option.some.inj h
          rw [parse_simple_string] at h
          split at h
          · cases h
            exact (List.drop_suffix _ _).trans (List.suffix_cons _ _)
          · cases h
        rw [if_neg h1] at h
        by_cases h2 : c = '-'
        · rw [if_pos h2] at h
          replace h := Option.some.inj h
          rw [parse_error] at h
          split at h
          · cases h
            exact (List.drop_suffix _ _).trans (List.suffix_cons _ _)
          · cases h
        rw [if_neg h2] at h
        by_cases h3 : c = ':'
        · rw [if_pos h3] at h
          replace h := Option.some.inj h
          rw [parse_integer] at h
          split at h
          · split at h
            · cases h
              exact (List.drop_suffix _ _).trans (List.suffix_cons _ _)
            · cases h
          · cases h
        rw [if_neg h3] at h
        by_cases h4 : c = '$'
        · rw [if_pos h4] at h
          replace h := Option.some.inj h
          rw [parse_bulk_string] at h
          split at h
          · split at h
            · split at h
              · cases h
                exact (List.drop_suffix _ _).trans (List.suffix_cons _ _)
              · split at h
                · cases h
                · split at h
                  · cases h
                  · split at h
                    · cases h
                    · cases h
                      exact ((List.drop_suffix _ _).trans (List.drop_suffix _ _)).trans
                        (List.suffix_cons _ _)
            · cases h
          · cases h
        rw [if_neg h4] at h
        by_cases h5 : c = '*'
        case neg =>
          rw [if_neg h5] at h
          exact PRes.noConfusion (Option.some.inj h)
        rw [if_pos h5] at h
        cases hfind : findCRLF rest with
        | none =>
          simp only [hfind] at h
          exact PRes.noConfusion (Option.some.inj h)
        | some pos =>
          simp only [hfind] at h
          cases hi : parseIsize (rest.take pos) with
          | none =>
            simp only [hi] at h
            exact PRes.noConfusion (Option.some.inj h)
          | some len =>
            simp only [hi] at h
            by_cases hneg : len = -1
            · rw [if_pos hneg] at h
              replace h := Option.some.inj h
              cases h
              exact (List.drop_suffix _ _).trans (List.suffix_cons _ _)
            rw [if_neg hneg] at h
            by_cases hcap : 2 ^ 63 - 1 < (len % (2 ^ 64 : Int)).toNat * 32
            · rw [if_pos hcap] at h
              exact PRes.noConfusion (Option.some.inj h)
            rw [if_neg hcap] at h
            cases he : parseElemsFuel f len.toNat (rest.drop (pos + 2)) with
            | none => rw [he] at h; exact Option.noConfusion h
            | some res2 =>
              rw [he] at h
              cases res2 with
              | ok items r' =>
                dsimp only at h
                replace h := Option.some.inj h
                cases h
                exact ((ih.2 _ _ _ _ he).trans (List.drop_suffix _ _)).trans
                  (List.suffix_cons _ _)
              | err e =>
                dsimp only at h
                exact PRes.noConfusion (Option.some.inj h)
              | panicked =>
                dsimp only at h
                exact PRes.noConfusion (Option.some.inj h)
    · intro n rest vs r h
      match n with
      | 0 =>
        rw [parseElemsFuel] at h
        replace h := Option.some.inj h
        cases h
        exact List.suffix_refl _
      | n + 1 =>
        rw [parseElemsFuel] at h
        cases hp : parseFuel f rest with
        | none => rw [hp] at h; exact Option.noConfusion h
        | some res0 =>
          rw [hp] at h
          cases res0 with
          | ok v0 r0 =>
            dsimp only at h
            cases he : parseElemsFuel f n r0 with
            | none => rw [he] at h; exact Option.noConfusion h
            | some res2 =>
              rw [he] at h
              cases res2 with
              | ok vs0 r1 =>
                dsimp only at h
                replace h := Option.some.inj h
                cases h
                exact (ih.2 _ _ _ _ he).trans (ih.1 _ _ _ hp)
              | err e =>
                dsimp only at h
                exact PRes.noConfusion (Option.some.inj h)
              | panicked =>
                dsimp only at h
                exact PRes.noConfusion (Option.some.inj h)
          | err e =>
            dsimp only at h
            exact PRes.noConfusion (Option.some.inj h)
          | panicked =>
            dsimp only at h
            exact PRes.noConfusion (Option.some.inj h)

/-- Every panic of the decoder traces to an overflowing header inside the
input: a bulk-string header whose `len + 2` overflows usize (declared length
`-2`), or an array header whose declared count casts to a
`Vec::with_capacity` request above `isize::MAX` bytes. -/
theorem parseFuel_panicked_source : ∀ (fuel : Nat),
    (∀ input, parseFuel fuel input = some .panicked →
      ∃ (s : Chars) (pos : Nat) (len : Int), findCRLF s = some pos ∧
        parseIsize (s.take pos) = some len ∧
        (('$' :: s) <:+ input ∧ 2 ^ 64 ≤ (len % 2 ^ 64).toNat + 2 ∨
         ('*' :: s) <:+ input ∧ 2 ^ 63 - 1 < (len % 2 ^ 64).toNat * 32)) ∧
    (∀ n rest, parseElemsFuel fuel n rest = some .panicked →
      ∃ (s : Chars) (pos : Nat) (len : Int), findCRLF s = some pos ∧
        parseIsize (s.take pos) = some len ∧
        (('$' :: s) <:+ rest ∧ 2 ^ 64 ≤ (len % 2 ^ 64).toNat + 2 ∨
         ('*' :: s) <:+ rest ∧ 2 ^ 63 - 1 < (len % 2 ^ 64).toNat * 32)) := by
  intro fuel
  induction fuel with
  | zero =>
    constructor
    · intro input h; simp [parseFuel] at h
    · intro n rest h; simp [parseElemsFuel] at h
  | succ f ih =>
    constructor
    · intro input h
      match input with
      | [] => rw [parseFuel] at h; simp at h
      | c :: rest =>
        rw [parseFuel] at h
        by_cases h1 : c = '+'
        · rw [if_pos h1] at h
          exact absurd (Option.some.inj h) (parse_simple_string_ne_panicked rest)
        rw [if_neg h1] at h
        by_cases h2 : c = '-'
        · rw [if_pos h2] at h
          exact absurd (Option.some.inj h) (parse_error_ne_panicked rest)
        rw [if_neg h2] at h
        by_cases h3 : c = ':'
        · rw [if_pos h3] at h
          exact absurd (Option.some.inj h) (parse_integer_ne_panicked rest)
        rw [if_neg h3] at h
        by_cases h4 : c = '$'
        · subst h4
          rw [if_pos rfl] at h
          obtain ⟨pos, len, hpos, hlen2, hcond⟩ :=
            parse_bulk_string_panicked (Option.some.inj h)
          exact ⟨rest, pos, len, hpos, hlen2, Or.inl ⟨List.suffix_refl _, hcond⟩⟩
        rw [if_neg h4] at h
        by_cases h5 : c = '*'
        case neg =>
          rw [if_neg h5] at h
          exact PRes.noConfusion (Option.some.inj h)
        subst h5
        rw [if_pos rfl] at h
        cases hfind : findCRLF rest with
        | none =>
          simp only [hfind] at h
          exact PRes.noConfusion (Option.some.inj h)
        | some pos =>
          simp only [hfind] at h
          cases hi : parseIsize (rest.take pos) with
          | none =>
            simp only [hi] at h
            exact PRes.noConfusion (Option.some.inj h)
          | some len =>
            simp only [hi] at h
            by_cases hneg : len = -1
            · rw [if_pos hneg] at h
              exact PRes.noConfusion (Option.some.inj h)
            rw [if_neg hneg] at h
            by_cases hcap : 2 ^ 63 - 1 < (len % (2 ^ 64 : Int)).toNat * 32
            · exact ⟨rest, pos, len, hfind, hi, Or.inr ⟨List.suffix_refl _, hcap⟩⟩
            rw [if_neg hcap] at h
            cases he : parseElemsFuel f len.toNat (rest.drop (pos + 2)) with
            | none => rw [he] at h; exact Option.noConfusion h
            | some res2 =>
              rw [he] at h
              cases res2 with
              | ok items r' =>
                dsimp only at h
                exact PRes.noConfusion (Option.some.inj h)
              | err e =>
                dsimp only at h
                exact PRes.noConfusion (Option.some.inj h)
              | panicked =>
                obtain ⟨s, p2, l2, hf2, hl2, hor⟩ := ih.2 _ _ he
                have hsub : rest.drop (pos + 2) <:+ ('*' :: rest) :=
                  (List.drop_suffix _ _).trans (List.suffix_cons _ _)
                refine ⟨s, p2, l2, hf2, hl2, ?_⟩
                rcases hor with ⟨hsfx, hc⟩ | ⟨hsfx, hc⟩
                · exact Or.inl ⟨hsfx.trans hsub, hc⟩
                · exact Or.inr ⟨hsfx.trans hsub, hc⟩
    · intro n rest h
      match n with
      | 0 =>
        rw [parseElemsFuel] at h
        exact PRes.noConfusion (Option.some.inj h)
      | n + 1 =>
        rw [parseElemsFuel] at h
        cases hp : parseFuel f rest with
        | none => rw [hp] at h; exact Option.noConfusion h
        | some res0 =>
          rw [hp] at h
          cases res0 with
          | ok v0 r0 =>
            dsimp only at h
            cases he : parseElemsFuel f n r0 with
            | none => rw [he] at h; exact Option.noConfusion h
            | some res2 =>
              rw [he] at h
              cases res2 with
              | ok vs0 r1 =>
                dsimp only at h
                exact PRes.noConfusion (Option.some.inj h)
              | err e =>
                dsimp only at h
                exact PRes.noConfusion (Option.some.inj h)
              | panicked =>
                obtain ⟨s, p2, l2, hf2, hl2, hor⟩ := ih.2 _ _ he
                have hsub : r0 <:+ rest := (parseFuel_ok_suffix f).1 _ _ _ hp
                refine ⟨s, p2, l2, hf2, hl2, ?_⟩
                rcases hor with ⟨hsfx, hc⟩ | ⟨hsfx, hc⟩
                · exact Or.inl ⟨hsfx.trans hsub, hc⟩
                · exact Or.inr ⟨hsfx.trans hsub, hc⟩
          | err e =>
            dsimp only at h
            exact PRes.noConfusion (Option.some.inj h)
          | panicked =>
            obtain ⟨s, p2, l2, hf2, hl2, hor⟩ := ih.1 _ hp
            exact ⟨s, p2, l2, hf2, hl2, hor⟩

/-- Panic provenance at the level of `parse`. -/
theorem parse_panicked_source {input : Chars} (h : parse input = .panicked) :
    ∃ (s : Chars) (pos : Nat) (len : Int), findCRLF s = some pos ∧
      parseIsize (s.take pos) = some len ∧
      (('$' :: s) <:+ input ∧ 2 ^ 64 ≤ (len % 2 ^ 64).toNat + 2 ∨
       ('*' :: s) <:+ input ∧ 2 ^ 63 - 1 < (len % 2 ^ 64).toNat * 32) := by
  have hf := parseFuel_eq_parse (Nat.lt_succ_self input.length)
  rw [h] at hf
  exact (parseFuel_panicked_source _).1 _ hf

/-- The inner decode loop on an empty buffer: `parse ""` is `InvalidFormat`
(`bytes.first()` is `None`), so the source logs to stderr and breaks,
keeping the session alive. -/
theorem innerLoop_nil (f : Nat) (db : Db) (now : Nat) (h : 1 ≤ f) :
    innerLoop f [] db now = ⟨[], ["-ERR invalid input\r\n"], [], db, true⟩ := by
  match f with
  | 0 => omega
  | f + 1 =>
    rw [innerLoop, parse_nil]

/-- Decides whether `needle` is a prefix of `hay`. -/
def startsWith : Chars → Chars → Bool
  | [], _ => true
  | _ :: _, [] => false
  | a :: as, b :: bs => (a = b) && startsWith as bs

/-- Decides whether `needle` occurs contiguously anywhere inside `hay` —
whether the reply "contains" (names) a token. -/
def containsSeq (needle : Chars) : Chars → Bool
  | [] => startsWith needle []
  | c :: rest => startsWith needle (c :: rest) || containsSeq needle rest

/-- Discriminator: did the decoder return a value or an error (as opposed to
panicking)? -/
def isOkOrErr : PRes RespValue → Bool
  | .ok _ _ => true
  | .err _ => true
  | .panicked => false

/-! ## The claims -/

/-- C1: the code's behaviour at an InvalidFormat decode, evaluated on the
session model.  On the buffer `"x"` (unrecognized tag byte) the session
writes nothing to the peer, prints the wire-formatted message
`-ERR invalid input\r\n` to stderr via `eprintln!`, keeps the buffer, and
stays alive — it does not write a protocol-error reply to the peer and does
not terminate, contradicting the claim (`break` leaves only the inner decode
loop, and the reply goes to the server's stderr). -/
theorem claim_C1_session_behaviour (db : Db) (now : Nat) :
    sessionStep [] ['x'] db now =
      ⟨[], ["-ERR invalid input\r\n"], ['x'], db, true⟩ := rfl

/-- C2: round-trip — encoding any representable value per the §6 wire format
and decoding the result yields an equal value with an empty unconsumed
remainder. -/
theorem claim_C2_roundtrip (v : RespValue) (hwf : wfB v = true) :
    parse (encode v) = .ok v [] := by
  have h := encode_parse v hwf []
  rwa [List.append_nil] at h

/-- Witness for C2 at a concrete value exercising every constructor. -/
theorem claim_C2_roundtrip_witness :
    parse (encode (.Array [.SimpleString "OK", .Integer (-42), .BulkString none,
        .BulkString (some "hello"), .Error "ERR boom"])) =
      .ok (.Array [.SimpleString "OK", .Integer (-42), .BulkString none,
        .BulkString (some "hello"), .Error "ERR boom"]) [] :=
  claim_C2_roundtrip _ (by rfl)

/-- C9 counterexample: at the claim's own example `$-2\r\n` the decoder does
not return `Incomplete` — the `len + 2` computation overflows `usize` and
the code panics. -/
theorem claim_C9_counterexample :
    parse ['$', '-', '2', '\r', '\n'] = .panicked ∧
      parse ['$', '-', '2', '\r', '\n'] ≠ .err .Incomplete := by
  constructor
  · rfl
  · intro h
    exact PRes.noConfusion (show (PRes.panicked : PResult) = .err .Incomplete from h)

/-- C9 amended: for a declared bulk length strictly below `-2` the negative
length is reinterpreted as an unsigned count exceeding the remaining input,
giving `Incomplete`; at exactly `-2` the `len + 2` computation overflows and
the code panics instead of returning.  (`s.length < 2^63` holds for every
real Rust string, whose byte length is at most `isize::MAX`.) -/
theorem claim_C9_amended (s : Chars) (pos : Nat) (len : Int)
    (hfind : findCRLF s = some pos) (hlen : parseIsize (s.take pos) = some len)
    (hneg : len < -1) (hbound : s.length < 2 ^ 63) :
    (len = -2 → parse ('$' :: s) = .panicked) ∧
    (len < -2 → parse ('$' :: s) = .err .Incomplete) := by
  have hrange := parseI64_range hlen
  rw [parse_dollar, parse_bulk_string, hfind]
  dsimp only
  rw [hlen]
  dsimp only
  rw [if_neg (by omega : ¬(len = -1))]
  constructor
  · intro h2
    subst h2
    split
    · rfl
    · rename_i hcond
      exfalso
      omega
  · intro h2
    split
    · rename_i hcond
      exfalso
      omega
    · split
      · rfl
      · rename_i hc1 hc2
        exfalso
        have hd : (s.drop (pos + 2)).length ≤ s.length := by
          rw [List.length_drop]; omega
        omega

/-- Witness for C9 at `$-3\r\n`: declared length `-3 < -2` yields
`Incomplete`. -/
theorem claim_C9_amended_witness :
    parse ['$', '-', '3', '\r', '\n'] = .err .Incomplete :=
  (claim_C9_amended ['-', '3', '\r', '\n'] 2 (-3) rfl rfl (by decide)
    (by decide)).2 (by decide)

/-- C10 counterexample: `parse` does not return a value or an error on every
input — on `$-2\r\nx` (declared bulk length `-2`) it panics. -/
theorem claim_C10_counterexample :
    isOkOrErr (parse ['$', '-', '2', '\r', '\n', 'x']) = false := rfl

/-- C10 amended: the decoder is total and terminating — recursion depth
`input.length + 1` always suffices, because every successful sub-parse
consumes at least three characters (tag plus terminator), so recursive calls
operate on strictly shorter suffixes; for every input it returns a
value-with-remainder or an error, except when a panic occurs, and every
panic traces to an overflowing header inside the input: a bulk-string header
whose `len + 2` overflows usize (declared length `-2` cast through
`as usize`), or an array header whose declared count casts to a
`Vec::with_capacity` request above `isize::MAX` bytes. -/
theorem claim_C10_amended (input : Chars) :
    (parseFuel (input.length + 1) input).isSome = true ∧
    (∀ v r, parse input = .ok v r → r.length + 3 ≤ input.length) ∧
    (parse input = .panicked →
      ∃ (s : Chars) (pos : Nat) (len : Int), findCRLF s = some pos ∧
        parseIsize (s.take pos) = some len ∧
        (('$' :: s) <:+ input ∧ 2 ^ 64 ≤ (len % 2 ^ 64).toNat + 2 ∨
         ('*' :: s) <:+ input ∧ 2 ^ 63 - 1 < (len % 2 ^ 64).toNat * 32)) :=
  ⟨(parseFuel_isSome (input.length + 1)).1 input (Nat.lt_succ_self _),
   fun _ _ h => parse_ok_length h,
   fun h => parse_panicked_source h⟩

/-- Witness for C10: on `+a\r\n` the fuel suffices and the successful parse
consumed all four characters; on `$-2\r\n` the panic traces to the
overflowing `$`-header it contains. -/
theorem claim_C10_amended_witness :
    ((parseFuel 5 ['+', 'a', '\r', '\n']).isSome = true ∧
      ([] : Chars).length + 3 ≤ (['+', 'a', '\r', '\n'] : Chars).length) ∧
    (∃ (s : Chars) (pos : Nat) (len : Int), findCRLF s = some pos ∧
      parseIsize (s.take pos) = some len ∧
      (('$' :: s) <:+ ['$', '-', '2', '\r', '\n'] ∧ 2 ^ 64 ≤ (len % 2 ^ 64).toNat + 2 ∨
       ('*' :: s) <:+ ['$', '-', '2', '\r', '\n'] ∧
         2 ^ 63 - 1 < (len % 2 ^ 64).toNat * 32)) :=
  ⟨⟨(claim_C10_amended ['+', 'a', '\r', '\n']).1,
    (claim_C10_amended ['+', 'a', '\r', '\n']).2.1 (.SimpleString "a") [] rfl⟩,
   (claim_C10_amended ['$', '-', '2', '\r', '\n']).2.2 rfl⟩

/-- C3: the `get` read of the store — a missing key is a miss leaving the
store unchanged; an entry whose expiry is strictly in the past is removed as
a side effect of the read and reported as a miss; otherwise the stored value
is a hit and the store is unchanged. -/
theorem claim_C3_get (now : Nat) (db : Db) (key : String) :
    (db key = none → getFromDb now db key = (none, db)) ∧
    (∀ e t, db key = some e → e.expires_at = some t → t < now →
      getFromDb now db key = (none, dbRemove key db) ∧
      ((getFromDb now db key).2) key = none) ∧
    (∀ e, db key = some e → (∀ t, e.expires_at = some t → ¬ t < now) →
      getFromDb now db key = (some e.value, db)) := by
  refine ⟨?_, ?_, ?_⟩
  · intro h
    rw [getFromDb, h]
  · intro e t he ht hlt
    have hmain : getFromDb now db key = (none, dbRemove key db) := by
      rw [getFromDb, he]
      dsimp only
      rw [ht]
      dsimp only
      rw [if_pos hlt]
    refine ⟨hmain, ?_⟩
    rw [hmain]
    simp [dbRemove]
  · intro e he hne
    rw [getFromDb, he]
    dsimp only
    cases ht : e.expires_at with
    | none => rfl
    | some t =>
      dsimp only
      rw [if_neg (hne t ht)]

/-- Witness for C3: reading key `k` whose entry expired at time 5, at time
10, reports a miss and removes the entry. -/
theorem claim_C3_get_witness :
    getFromDb 10 (dbInsert "k" ⟨"v", some 5⟩ emptyDb) "k" =
      (none, dbRemove "k" (dbInsert "k" ⟨"v", some 5⟩ emptyDb)) ∧
    ((getFromDb 10 (dbInsert "k" ⟨"v", some 5⟩ emptyDb) "k").2) "k" = none :=
  (claim_C3_get 10 (dbInsert "k" ⟨"v", some 5⟩ emptyDb) "k").2.1 ⟨"v", some 5⟩ 5 rfl rfl
    (by decide)

/-- C8: a second `SET` on the same key replaces the prior entry wholesale:
after `SET k v1 PX ms` and then `SET k v2` without an expiry option, the
entry holds `v2` with no expiry, and a later `get` is a hit on `v2` at any
time, never reporting expiry. -/
theorem claim_C8_overwrite (now1 now2 now3 : Nat) (db : Db) (k v1 v2 ms : String)
    (m : Nat) (hms : parseU64 ms.data = some m) :
    let r1 := handleCommand now1 (.Array [.BulkString (some "SET"), .BulkString (some k),
      .BulkString (some v1), .BulkString (some "PX"), .BulkString (some ms)]) db
    let r2 := handleCommand now2 (.Array [.BulkString (some "SET"), .BulkString (some k),
      .BulkString (some v2)]) r1.2
    r1.1 = "+OK\r\n" ∧ r1.2 k = some ⟨v1, some (now1 + m)⟩ ∧
      r2.1 = "+OK\r\n" ∧ r2.2 k = some ⟨v2, none⟩ ∧
      getFromDb now3 r2.2 k = (some v2, r2.2) := by
  intro r1 r2
  have hset : strUpper "SET" = "SET" := rfl
  have hpx : strUpper "PX" = "PX" := rfl
  have h1 : r1 = ("+OK\r\n", dbInsert k ⟨v1, some (now1 + m)⟩ db) := by
    show handleCommand _ _ _ = _
    simp [handleCommand, hset, hpx, hms]
  have h2 : r2 = ("+OK\r\n", dbInsert k ⟨v2, none⟩ r1.2) := by
    show handleCommand _ _ _ = _
    simp [handleCommand, hset]
  have hk2 : r2.2 k = some ⟨v2, none⟩ := by
    rw [h2]
    simp [dbInsert]
  refine ⟨by rw [h1], by rw [h1]; simp [dbInsert], by rw [h2], hk2, ?_⟩
  rw [getFromDb, hk2]

/-- Witness for C8 with concrete keys, values and times. -/
theorem claim_C8_overwrite_witness :
    let r1 := handleCommand 0 (.Array [.BulkString (some "SET"), .BulkString (some "k"),
      .BulkString (some "a"), .BulkString (some "PX"), .BulkString (some "100000")]) emptyDb
    let r2 := handleCommand 1 (.Array [.BulkString (some "SET"), .BulkString (some "k"),
      .BulkString (some "b")]) r1.2
    r1.1 = "+OK\r\n" ∧ r1.2 "k" = some ⟨"a", some (0 + 100000)⟩ ∧
      r2.1 = "+OK\r\n" ∧ r2.2 "k" = some ⟨"b", none⟩ ∧
      getFromDb 500 r2.2 "k" = (some "b", r2.2) :=
  claim_C8_overwrite 0 1 500 emptyDb "k" "a" "b" "100000" 100000 (by rfl)

/-- C4 counterexample: the claim says a non-negative declared count runs the
element loop, propagating any recursive failure; but at declared count
`2305843009213693952` (= 2^61, non-negative, so in the claim's scope) the
source panics in `Vec::with_capacity` — the requested capacity exceeds
`isize::MAX` bytes at 32 bytes per element — before the decoder is invoked
even once, so the result is neither an `n`-element array nor a propagated
`Incomplete`/`InvalidFormat`. -/
theorem claim_C4_counterexample :
    parse ['*', '2', '3', '0', '5', '8', '4', '3', '0', '0', '9', '2', '1', '3', '6',
        '9', '3', '9', '5', '2', '\r', '\n'] = .panicked ∧
    isOkOrErr (parse ['*', '2', '3', '0', '5', '8', '4', '3', '0', '0', '9', '2', '1',
        '3', '6', '9', '3', '9', '5', '2', '\r', '\n']) = false :=
  ⟨rfl, rfl⟩

/-- C4 amended: decoding input tagged `*` — a declared count of `-1` yields
an empty array consuming only the header; a count `n ≥ 0` whose
`Vec::with_capacity(n)` request fits in `isize::MAX` bytes (32 bytes per
element) runs the element loop, which invokes the decoder exactly `n` times
threading the remainder forward (every success has exactly `n` elements),
and any recursive failure propagates unchanged; a count `n ≥ 0` beyond that
bound, and likewise any count below `-1` (whose `as usize` cast lands above
the bound), panics in `Vec::with_capacity` before any recursive
invocation. -/
theorem claim_C4_amended (s : Chars) (pos : Nat) (len : Int)
    (hfind : findCRLF s = some pos) (hlen : parseIsize (s.take pos) = some len) :
    (len = -1 → parse ('*' :: s) = .ok (.Array []) (s.drop (pos + 2))) ∧
    (0 ≤ len → len.toNat * 32 ≤ 2 ^ 63 - 1 →
      parse ('*' :: s) =
        (match parseElems len.toNat (s.drop (pos + 2)) with
         | .ok items r => .ok (.Array items) r
         | .err e => .err e
         | .panicked => .panicked) ∧
      ∀ items r, parseElems len.toNat (s.drop (pos + 2)) = .ok items r →
        items.length = len.toNat) ∧
    (0 ≤ len → 2 ^ 63 - 1 < len.toNat * 32 → parse ('*' :: s) = .panicked) ∧
    (len < -1 → parse ('*' :: s) = .panicked) ∧
    (∀ (n : Nat) (rest : Chars) (e : RespParseError), parse rest = .err e →
      parseElems (n + 1) rest = .err e) ∧
    (∀ (n : Nat) (rest : Chars) (e : RespParseError), parseElems n rest = .err e →
      ∃ r, parse r = .err e) := by
  have hrange := parseI64_range hlen
  rw [parse_star, parse_array, hfind]
  dsimp only
  rw [hlen]
  dsimp only
  refine ⟨?_, ?_, ?_, ?_, fun n rest e h => parseElems_err_first n rest e h,
    fun n rest e h => parseElems_err_source n rest h⟩
  · intro hm1
    rw [if_pos hm1]
  · intro hpos hcap
    have hmod : (len % (2 ^ 64 : Int)).toNat = len.toNat := by omega
    rw [if_neg (by omega : ¬(len = -1)), hmod,
      if_neg (by omega : ¬(2 ^ 63 - 1 < len.toNat * 32))]
    exact ⟨rfl, fun items r h => parseElems_ok_length _ _ h⟩
  · intro hpos hcap
    have hmod : (len % (2 ^ 64 : Int)).toNat = len.toNat := by omega
    rw [if_neg (by omega : ¬(len = -1)), hmod, if_pos hcap]
  · intro hneg
    rw [if_neg (by omega : ¬(len = -1)),
      if_pos (by omega : 2 ^ 63 - 1 < (len % (2 ^ 64 : Int)).toNat * 32)]

/-- Witness for C4 on `*2\r\n:1\r\n:2\r\n` (count 2 is within the capacity
bound, so the loop runs and yields both elements). -/
theorem claim_C4_amended_witness :
    parse ['*', '2', '\r', '\n', ':', '1', '\r', '\n', ':', '2', '\r', '\n'] =
      .ok (.Array [.Integer 1, .Integer 2]) [] := by
  have h := (claim_C4_amended ['2', '\r', '\n', ':', '1', '\r', '\n', ':', '2', '\r', '\n']
    1 2 rfl rfl).2.1 (by decide) (by decide)
  rw [h.1]
  rfl

/-- C5: decoding input tagged `$` — declared length `-1` yields the null
bulk string with no payload consumed; a length `n ≥ 0` with fewer than
`n + 2` characters after the header fails `Incomplete`; otherwise exactly
`n` characters become the payload, the following two characters must be CRLF
(`InvalidFormat` if not), and a present bulk string is yielded. -/
theorem claim_C5_bulk (s : Chars) (pos : Nat) (len : Int)
    (hfind : findCRLF s = some pos) (hlen : parseIsize (s.take pos) = some len) :
    (len = -1 → parse ('$' :: s) = .ok (.BulkString none) (s.drop (pos + 2))) ∧
    (0 ≤ len →
      ((s.drop (pos + 2)).length < len.toNat + 2 → parse ('$' :: s) = .err .Incomplete) ∧
      (len.toNat + 2 ≤ (s.drop (pos + 2)).length →
        (((s.drop (pos + 2)).drop len.toNat).take 2 = ['\r', '\n'] →
          parse ('$' :: s) =
            .ok (.BulkString (some ⟨(s.drop (pos + 2)).take len.toNat⟩))
              ((s.drop (pos + 2)).drop (len.toNat + 2))) ∧
        (((s.drop (pos + 2)).drop len.toNat).take 2 ≠ ['\r', '\n'] →
          parse ('$' :: s) = .err .InvalidFormat))) := by
  have hrange := parseI64_range hlen
  rw [parse_dollar, parse_bulk_string, hfind]
  dsimp only
  rw [hlen]
  dsimp only
  constructor
  · intro hm1
    rw [if_pos hm1]
  · intro hpos
    rw [if_neg (by omega : ¬(len = -1))]
    have hmod : (len % 2 ^ 64).toNat = len.toNat := by omega
    rw [hmod]
    rw [if_neg (by omega : ¬(2 ^ 64 ≤ len.toNat + 2))]
    constructor
    · intro hlt
      rw [if_pos hlt]
    · intro hge
      rw [if_neg (by omega : ¬((s.drop (pos + 2)).length < len.toNat + 2))]
      constructor
      · intro hcr
        rw [if_neg (show ¬(((s.drop (pos + 2)).drop len.toNat).take 2 ≠ ['\r', '\n']) from
          fun h => h hcr)]
      · intro hcr
        rw [if_pos hcr]

/-- Witness for C5 on `$3\r\nabc\r\n`. -/
theorem claim_C5_bulk_witness :
    parse ['$', '3', '\r', '\n', 'a', 'b', 'c', '\r', '\n'] =
      .ok (.BulkString (some "abc")) [] := by
  have h := (((claim_C5_bulk ['3', '\r', '\n', 'a', 'b', 'c', '\r', '\n'] 1 3 rfl rfl).2
    (by decide)).2 (by decide)).1 (by rfl)
  exact h

/-- C6 counterexample: a `SET` with `PX` and an unparseable expiry value is
not silently ignored by the live handler — it replies
`-ERR invalid expire time` and stores nothing, so the Set does not
succeed. -/
theorem claim_C6_counterexample :
    handleCommand 0 (.Array [.BulkString (some "SET"), .BulkString (some "k"),
        .BulkString (some "v"), .BulkString (some "PX"), .BulkString (some "abc")]) emptyDb =
      ("-ERR invalid expire time\r\n", emptyDb) := rfl

/-- C6 amended: on a `SET` array with five or more elements, a present bulk
fourth element equal (case-insensitively) to `PX` with a present bulk fifth
parseable as `u64` sets the millisecond expiry; every other combination of
positions four and five is silently ignored and the Set succeeds without
expiry — except, in the live handler, `PX` with an unparseable fifth, which
replies `-ERR invalid expire time` and stores nothing.  The interpreter
module `parse_command` has the total leniency the claim states. -/
theorem claim_C6_amended (now : Nat) (db : Db) (cmd k v : String) (e3 e4 : RespValue)
    (rest : List RespValue) (hcmd : strUpper cmd = "SET") :
    handleCommand now (.Array (.BulkString (some cmd) :: .BulkString (some k) ::
        .BulkString (some v) :: e3 :: e4 :: rest)) db =
      (match e3, e4 with
       | .BulkString (some opt), .BulkString (some ms) =>
         if strUpper opt = "PX" then
           match parseU64 ms.data with
           | some m => ("+OK\r\n", dbInsert k ⟨v, some (now + m)⟩ db)
           | none => ("-ERR invalid expire time\r\n", db)
         else ("+OK\r\n", dbInsert k ⟨v, none⟩ db)
       | _, _ => ("+OK\r\n", dbInsert k ⟨v, none⟩ db)) ∧
    parse_command (.Array (.BulkString (some cmd) :: .BulkString (some k) ::
        .BulkString (some v) :: e3 :: e4 :: rest)) =
      .ok (.Set k v
        (match e3, e4 with
         | .BulkString (some opt), .BulkString (some ms) =>
           if strUpper opt = "PX" then parseU64 ms.data else none
         | _, _ => none)) := by
  have hL3 : ¬((RespValue.BulkString (some cmd) :: .BulkString (some k) ::
      .BulkString (some v) :: e3 :: e4 :: rest).length < 3) := by
    simp only [List.length_cons]; omega
  have hL5 : 5 ≤ (RespValue.BulkString (some cmd) :: .BulkString (some k) ::
      .BulkString (some v) :: e3 :: e4 :: rest).length := by
    simp only [List.length_cons]; omega
  constructor
  · cases e3 with
    | BulkString o3 =>
      cases o3 with
      | none => simp [handleCommand, hcmd, hL3, hL5]
      | some opt =>
        cases e4 with
        | BulkString o4 =>
          cases o4 with
          | none => simp [handleCommand, hcmd, hL3, hL5]
          | some ms =>
            by_cases hpx : strUpper opt = "PX"
            · cases hu : parseU64 ms.data with
              | some m => simp [handleCommand, hcmd, hL3, hL5, hpx, hu]
              | none => simp [handleCommand, hcmd, hL3, hL5, hpx, hu]
            · simp [handleCommand, hcmd, hL3, hL5, hpx]
        | SimpleString s4 => simp [handleCommand, hcmd, hL3, hL5]
        | Error s4 => simp [handleCommand, hcmd, hL3, hL5]
        | Integer n4 => simp [handleCommand, hcmd, hL3, hL5]
        | Array xs4 => simp [handleCommand, hcmd, hL3, hL5]
    | SimpleString s3 => simp [handleCommand, hcmd, hL3, hL5]
    | Error s3 => simp [handleCommand, hcmd, hL3, hL5]
    | Integer n3 => simp [handleCommand, hcmd, hL3, hL5]
    | Array xs3 => simp [handleCommand, hcmd, hL3, hL5]
  · cases e3 with
    | BulkString o3 =>
      cases o3 with
      | none => simp [parse_command, hcmd, hL5]
      | some opt =>
        cases e4 with
        | BulkString o4 =>
          cases o4 with
          | none => simp [parse_command, hcmd, hL5]
          | some ms =>
            by_cases hpx : strUpper opt = "PX"
            · simp [parse_command, hcmd, hL5, hpx]
            · simp [parse_command, hcmd, hL5, hpx]
        | SimpleString s4 => simp [parse_command, hcmd, hL5]
        | Error s4 => simp [parse_command, hcmd, hL5]
        | Integer n4 => simp [parse_command, hcmd, hL5]
        | Array xs4 => simp [parse_command, hcmd, hL5]
    | SimpleString s3 => simp [parse_command, hcmd, hL5]
    | Error s3 => simp [parse_command, hcmd, hL5]
    | Integer n3 => simp [parse_command, hcmd, hL5]
    | Array xs3 => simp [parse_command, hcmd, hL5]

/-- Witness for C6: lowercase `set` with `px 99` at time 7 stores the entry
with expiry 106, and the interpreter agrees. -/
theorem claim_C6_amended_witness :
    handleCommand 7 (.Array [.BulkString (some "set"), .BulkString (some "k"),
        .BulkString (some "v"), .BulkString (some "px"), .BulkString (some "99")]) emptyDb =
      ("+OK\r\n", dbInsert "k" ⟨"v", some 106⟩ emptyDb) ∧
    parse_command (.Array [.BulkString (some "set"), .BulkString (some "k"),
        .BulkString (some "v"), .BulkString (some "px"), .BulkString (some "99")]) =
      .ok (.Set "k" "v" (some 99)) := by
  have h := claim_C6_amended 7 emptyDb "set" "k" "v" (.BulkString (some "px"))
    (.BulkString (some "99")) [] (by rfl)
  exact ⟨h.1.trans rfl, h.2.trans rfl⟩

/-- C7 counterexample: on the unknown command `UNKNOWN` (the spec's own
example) the reply is the fixed string `-ERR unknown command`, which does
not contain the token `UNKNOWN`. -/
theorem claim_C7_counterexample :
    (handleCommand 0 (.Array [.BulkString (some "UNKNOWN")]) emptyDb).1 =
      "-ERR unknown command\r\n" ∧
    containsSeq "UNKNOWN".data ("-ERR unknown command\r\n").data = false :=
  ⟨rfl, rfl⟩

/-- C7 amended: for every decoded command array whose first element is a
present bulk string whose uppercased form matches no known verb — whatever
the remaining elements — the handler returns the fixed reply
`-ERR unknown command` (independent of the token, so it never names it) and
leaves the store untouched; inside a session, decoding such an array from
the buffer emits that one reply and the session carries on with the
remaining buffer, store and liveness exactly as if it had started there, so
the unknown command itself never closes the connection.  Concretely, a
session fed exactly one such command replies `-ERR unknown command` and is
still alive with an empty buffer (the trailing stderr log comes from
re-running the decoder on the now-empty buffer). -/
theorem claim_C7_amended (now : Nat) (db : Db) (cmd : String) (tail : List RespValue)
    (h1 : strUpper cmd ≠ "PING") (h2 : strUpper cmd ≠ "ECHO")
    (h3 : strUpper cmd ≠ "SET") (h4 : strUpper cmd ≠ "GET")
    (hlen : cmd.length ≤ 2 ^ 63 - 1) :
    handleCommand now (.Array (.BulkString (some cmd) :: tail)) db =
      ("-ERR unknown command\r\n", db) ∧
    (∀ (f : Nat) (buf rest : Chars),
      parse buf = .ok (.Array (.BulkString (some cmd) :: tail)) rest →
      innerLoop (f + 1) buf db now =
        ⟨"-ERR unknown command\r\n" :: (innerLoop f rest db now).replies,
         (innerLoop f rest db now).logs, (innerLoop f rest db now).buffer,
         (innerLoop f rest db now).db, (innerLoop f rest db now).alive⟩) ∧
    sessionStep [] (encode (.Array [.BulkString (some cmd)])) db now =
      ⟨["-ERR unknown command\r\n"], ["-ERR invalid input\r\n"], [], db, true⟩ := by
  have hcmdres : handleCommand now (.Array (.BulkString (some cmd) :: tail)) db =
      ("-ERR unknown command\r\n", db) := by
    simp only [handleCommand, List.getElem?_cons_zero]
    rw [if_neg h1, if_neg h2, if_neg h3, if_neg h4]
  refine ⟨hcmdres, ?_, ?_⟩
  · intro f buf rest hp
    rw [innerLoop, hp]
    dsimp only
    rw [hcmdres]
  · have hwf : wfB (.Array [.BulkString (some cmd)]) = true := by
      simp [wfB, wfListB]
      omega
    have hp : parse (encode (.Array [.BulkString (some cmd)])) =
        .ok (.Array [.BulkString (some cmd)]) [] := by
      have h := encode_parse _ hwf []
      rwa [List.append_nil] at h
    have hcmd1 : handleCommand now (.Array [.BulkString (some cmd)]) db =
        ("-ERR unknown command\r\n", db) := by
      simp only [handleCommand, List.getElem?_cons_zero]
      rw [if_neg h1, if_neg h2, if_neg h3, if_neg h4]
    have hL1 : 1 ≤ (encode (.Array [.BulkString (some cmd)])).length := by
      rw [encode]
      simp
    rw [sessionStep, List.nil_append, innerLoop, hp]
    dsimp only
    rw [hcmd1, innerLoop_nil _ _ _ hL1]

/-- Witness for C7 on the two-element command `FOO bar`, both at the handler
and inside a session decoding its wire form `*2\r\n$3\r\nFOO\r\n$3\r\nbar\r\n`,
plus the one-command session for `FOO` alone. -/
theorem claim_C7_amended_witness :
    handleCommand 0 (.Array [.BulkString (some "FOO"), .BulkString (some "bar")]) emptyDb =
      ("-ERR unknown command\r\n", emptyDb) ∧
    innerLoop 1 ['*', '2', '\r', '\n', '$', '3', '\r', '\n', 'F', 'O', 'O', '\r', '\n',
        '$', '3', '\r', '\n', 'b', 'a', 'r', '\r', '\n'] emptyDb 0 =
      ⟨"-ERR unknown command\r\n" :: (innerLoop 0 [] emptyDb 0).replies,
       (innerLoop 0 [] emptyDb 0).logs, (innerLoop 0 [] emptyDb 0).buffer,
       (innerLoop 0 [] emptyDb 0).db, (innerLoop 0 [] emptyDb 0).alive⟩ ∧
    sessionStep [] (encode (.Array [.BulkString (some "FOO")])) emptyDb 0 =
      ⟨["-ERR unknown command\r\n"], ["-ERR invalid input\r\n"], [], emptyDb, true⟩ := by
  have h := claim_C7_amended 0 emptyDb "FOO" [.BulkString (some "bar")]
    (by decide) (by decide) (by decide) (by decide) (by decide)
  exact ⟨h.1,
    h.2.1 0 ['*', '2', '\r', '\n', '$', '3', '\r', '\n', 'F', 'O', 'O', '\r', '\n',
      '$', '3', '\r', '\n', 'b', 'a', 'r', '\r', '\n'] [] (by rfl),
    h.2.2⟩

end TinyRedis
